import Mathlib

/-!
Verification of the content-ingestion-and-retrieval pipeline of the
`streamlit_demo` repository: the deduplicating site crawlers
(`src/app/crawler.py`, `src/scrape_site_script.py`), the chunker
(`src/app/chunker.py`) and the fingerprinted FAISS vector-index cache
(`src/app/streamlit-chat.py`).

Python strings are embedded as `List Char` (the type `Str` below); Python
dicts, which preserve insertion order and overwrite in place, are embedded as
association lists with `dictInsert`.  External capabilities (the Selenium
page fetcher, the embedding service, the file system, `hashlib.md5`,
`urllib.parse.urljoin`, `tldextract` and langchain's text splitter) are
either passed as explicit parameters or modelled from the spec, as noted on
each definition.
-/

/-- Python `str`, embedded as its sequence of characters. -/
abbrev Str := List Char

/-- The characters of a Lean string literal, used to write concrete Python
string values. -/
def str (s : String) : Str := s.data

/-- Python dict lookup `m.get(k)` for a dict embedded as an association
list in insertion order. -/
def dictGet {α : Type} (m : List (Str × α)) (k : Str) : Option α :=
  match m with
  | [] => none
  | (k', v) :: rest => if k' = k then some v else dictGet rest k

/-- Python dict assignment `m[k] = v`: overwrite in place when the key is
present, append otherwise (insertion order preserved). -/
def dictInsert {α : Type} (m : List (Str × α)) (k : Str) (v : α) : List (Str × α) :=
  match m with
  | [] => [(k, v)]
  | (k', v') :: rest => if k' = k then (k', v) :: rest else (k', v') :: dictInsert rest k v

/-- Removal of a key, as `os.remove` leaves the directory. -/
def dictErase {α : Type} (m : List (Str × α)) (k : Str) : List (Str × α) :=
  match m with
  | [] => []
  | (k', v') :: rest => if k' = k then rest else (k', v') :: dictErase rest k

theorem dictGet_dictInsert {α : Type} (m : List (Str × α)) (k : Str) (v : α) :
    dictGet (dictInsert m k v) k = some v := by
  induction m with
  | nil => simp [dictInsert, dictGet]
  | cons p rest ih =>
    obtain ⟨k', v'⟩ := p
    by_cases h : k' = k <;> simp [dictInsert, dictGet, h, ih]

theorem dictInsert_keys {α : Type} (m : List (Str × α)) (k : Str) (v : α) :
    ∀ k' ∈ (dictInsert m k v).map Prod.fst, k' = k ∨ k' ∈ m.map Prod.fst := by
  induction m with
  | nil => simp [dictInsert]
  | cons p rest ih =>
    obtain ⟨k₀, v₀⟩ := p
    intro k' hk'
    by_cases h : k₀ = k
    · subst h
      rw [show dictInsert ((k₀, v₀) :: rest) k₀ v = (k₀, v) :: rest by
        unfold dictInsert; rw [if_pos rfl]] at hk'
      simp only [List.map_cons, List.mem_cons] at hk' ⊢
      tauto
    · simp only [dictInsert, if_neg h, List.map_cons, List.mem_cons] at hk' ⊢
      rcases hk' with h' | h'
      · tauto
      · rcases ih k' h' with h'' | h'' <;> tauto

/-! ## Decimal rendering of a natural number

Python's f-string `f"{i}"` renders the int `i` in decimal.  `natRepr`
reproduces that rendering; `decVal` is its left inverse, which gives
injectivity, and every rendered character is a decimal digit (so never an
underscore) — the two facts the chunk-id collision argument needs. -/

/-- The decimal digit character for `d % 10`. -/
def digitChar (d : Nat) : Char :=
  ['0', '1', '2', '3', '4', '5', '6', '7', '8', '9'].getD (d % 10) '0'

/-- Digits of `n` in decimal, most significant first; `fuel` bounds the
recursion and any `fuel > n` is enough. -/
def toDigits : Nat → Nat → List Char
  | 0, _ => []
  | fuel + 1, n =>
    if n < 10 then [digitChar n] else toDigits fuel (n / 10) ++ [digitChar (n % 10)]

/-- Python `str(i)` for a non-negative int, as a character sequence. -/
def natRepr (n : Nat) : Str := toDigits (n + 1) n

/-- Value of a digit character. -/
def digitVal (c : Char) : Nat := c.toNat - 48

/-- Reading a decimal digit sequence back as a number. -/
def decVal (l : List Char) : Nat := l.foldl (fun a c => 10 * a + digitVal c) 0

theorem digitVal_digitChar : ∀ d, d < 10 → digitVal (digitChar d) = d := by decide

theorem digitChar_isDigit : ∀ d, (digitChar d).isDigit = true := by
  intro d
  have h : ∀ r, r < 10 →
      ((['0', '1', '2', '3', '4', '5', '6', '7', '8', '9'].getD r '0').isDigit = true) := by
    decide
  exact h _ (Nat.mod_lt _ (by omega))

theorem decVal_append_digit (l : List Char) (c : Char) :
    decVal (l ++ [c]) = 10 * decVal l + digitVal c := by
  simp [decVal, List.foldl_append]

theorem decVal_toDigits : ∀ fuel n, n < fuel → decVal (toDigits fuel n) = n := by
  intro fuel
  induction fuel with
  | zero => omega
  | succ f ih =>
    intro n hn
    by_cases h : n < 10
    · have : n % 10 = n := Nat.mod_eq_of_lt h
      simp [toDigits, h, decVal, digitVal_digitChar n h]
    · have hd : n / 10 < f := by omega
      simp only [toDigits, if_neg h, decVal_append_digit, ih _ hd,
        digitVal_digitChar _ (Nat.mod_lt _ (by omega))]
      omega

theorem decVal_natRepr (n : Nat) : decVal (natRepr n) = n :=
  decVal_toDigits (n + 1) n (Nat.lt_succ_self n)

theorem natRepr_injective : Function.Injective natRepr := by
  intro a b h
  have := decVal_natRepr a
  rw [h, decVal_natRepr] at this
  omega

theorem toDigits_digits : ∀ fuel n c, c ∈ toDigits fuel n → c.isDigit = true := by
  intro fuel
  induction fuel with
  | zero => intro n c hc; simp [toDigits] at hc
  | succ f ih =>
    intro n c hc
    by_cases h : n < 10
    · simp only [toDigits, if_pos h, List.mem_singleton] at hc
      subst hc; exact digitChar_isDigit n
    · simp only [toDigits, if_neg h, List.mem_append, List.mem_singleton] at hc
      rcases hc with hc | hc
      · exact ih _ _ hc
      · subst hc; exact digitChar_isDigit _

theorem natRepr_no_underscore (n : Nat) : ∀ c ∈ natRepr n, c ≠ '_' := by
  intro c hc heq
  have := toDigits_digits (n + 1) n c hc
  subst heq
  simp [Char.isDigit] at this

/-! ## Chunk identifiers (`src/app/chunker.py`)

The chunker emits, for the `i`-th chunk of the content stored under
`data_link`, the id `f"{data_link}_chunk_{i}"`. -/

/-- The chunk id `f"{data_link}_chunk_{i}"` of `src/app/chunker.py` line 23. -/
def mkChunkId (link : Str) (i : Nat) : Str := link ++ str "_chunk_" ++ natRepr i

/-- Splitting at the last occurrence of a marker character: two
marker-avoiding left parts followed by the marker agree exactly when the
parts agree. -/
theorem append_marker_inj {x₁ x₂ y₁ y₂ : List Char} {m : Char}
    (hx₁ : ∀ c ∈ x₁, c ≠ m) (hx₂ : ∀ c ∈ x₂, c ≠ m)
    (h : x₁ ++ m :: y₁ = x₂ ++ m :: y₂) : x₁ = x₂ ∧ y₁ = y₂ := by
  induction x₁ generalizing x₂ with
  | nil =>
    cases x₂ with
    | nil => simpa using h
    | cons c t =>
      simp only [List.nil_append, List.cons_append, List.cons.injEq] at h
      exact absurd h.1.symm (hx₂ c (by simp))
  | cons c t ih =>
    cases x₂ with
    | nil =>
      simp only [List.nil_append, List.cons_append, List.cons.injEq] at h
      exact absurd h.1 (hx₁ c (by simp))
    | cons c' t' =>
      simp only [List.cons_append, List.cons.injEq] at h
      obtain ⟨h1, h2⟩ := h
      have := ih (fun d hd => hx₁ d (by simp [hd])) (fun d hd => hx₂ d (by simp [hd])) h2
      exact ⟨by simp [h1, this.1], this.2⟩

theorem mkChunkId_inj {l₁ l₂ : Str} {i₁ i₂ : Nat}
    (h : mkChunkId l₁ i₁ = mkChunkId l₂ i₂) : l₁ = l₂ ∧ i₁ = i₂ := by
  unfold mkChunkId at h
  have hrev := congrArg List.reverse h
  have hsep : (str "_chunk_").reverse = '_' :: str "knuhc_" := by decide
  rw [List.reverse_append, List.reverse_append, List.reverse_append, List.reverse_append,
    hsep] at hrev
  simp only [List.cons_append] at hrev
  have hd₁ : ∀ c ∈ (natRepr i₁).reverse, c ≠ '_' := by
    intro c hc; exact natRepr_no_underscore i₁ c (List.mem_reverse.mp hc)
  have hd₂ : ∀ c ∈ (natRepr i₂).reverse, c ≠ '_' := by
    intro c hc; exact natRepr_no_underscore i₂ c (List.mem_reverse.mp hc)
  obtain ⟨hdig, hrest⟩ := append_marker_inj hd₁ hd₂ hrev
  have hi : i₁ = i₂ := natRepr_injective (List.reverse_injective hdig)
  have hl : l₁ = l₂ := by
    have := List.append_cancel_left hrest
    exact List.reverse_injective this
  exact ⟨hl, hi⟩

/-! ## The chunker (`src/app/chunker.py`)

`chunk_content` loads a JSON dict mapping data-links to content, splits each
content with langchain's `RecursiveCharacterTextSplitter`, and emits one
record `{"data_link": .., "chunk_id": f"{data_link}_chunk_{i}", "content": ..}`
per piece.  The splitter itself is external library code, so the pure chunk
assembly is parameterised by the splitting function and the splitter is
modelled from the spec further below. -/

/-- A chunk record, the exact field shape `chunk_content` builds
(src/app/chunker.py lines 21-26). -/
structure Chunk where
  data_link : Str
  chunk_id : Str
  content : Str
deriving DecidableEq, Repr

/-- Embeds `for i, chunk in enumerate(chunked_content)` of `chunk_content`
(src/app/chunker.py lines 20-26), the ordinal `i` running from the given
start. -/
def chunkRows (link : Str) : Nat → List Str → List Chunk
  | _, [] => []
  | i, c :: cs => ⟨link, mkChunkId link i, c⟩ :: chunkRows link (i + 1) cs

/-- The chunk list `chunk_content` accumulates (src/app/chunker.py lines
16-26): one pass over the dataset items in order, splitting each content
with the text splitter `split`. -/
def chunkRecords (split : Str → List Str) (data : List (Str × Str)) : List Chunk :=
  data.flatMap fun p => chunkRows p.1 0 (split p.2)

theorem chunkRows_ids (link : Str) :
    ∀ i cs c, c ∈ chunkRows link i cs →
      c.data_link = link ∧ ∃ j, i ≤ j ∧ j < i + cs.length ∧ c.chunk_id = mkChunkId link j := by
  intro i cs
  induction cs generalizing i with
  | nil => intro c hc; simp [chunkRows] at hc
  | cons x xs ih =>
    intro c hc
    simp only [chunkRows, List.mem_cons] at hc
    rcases hc with hc | hc
    · subst hc
      exact ⟨rfl, i, Nat.le_refl i, by simp, rfl⟩
    · obtain ⟨h1, j, hj1, hj2, hj3⟩ := ih (i + 1) c hc
      exact ⟨h1, j, by omega, by simp at hj2 ⊢; omega, hj3⟩

theorem chunkRows_complete (link : Str) :
    ∀ i cs j, j < cs.length →
      ∃ c ∈ chunkRows link i cs, c.data_link = link ∧ c.chunk_id = mkChunkId link (i + j) := by
  intro i cs
  induction cs generalizing i with
  | nil => intro j hj; simp at hj
  | cons x xs ih =>
    intro j hj
    cases j with
    | zero => exact ⟨⟨link, mkChunkId link i, x⟩, by simp [chunkRows], rfl, rfl⟩
    | succ j' =>
      obtain ⟨c, hc, h1, h2⟩ := ih (i + 1) j' (by simpa using Nat.lt_of_succ_lt_succ hj)
      exact ⟨c, by simp [chunkRows, hc], h1, by rw [h2]; congr 1; omega⟩

theorem chunkRows_ids_nodup (link : Str) :
    ∀ i cs, ((chunkRows link i cs).map (fun c => c.chunk_id)).Nodup := by
  intro i cs
  induction cs generalizing i with
  | nil => simp [chunkRows]
  | cons x xs ih =>
    simp only [chunkRows, List.map_cons, List.nodup_cons]
    refine ⟨fun hmem => ?_, ih (i + 1)⟩
    rw [List.mem_map] at hmem
    obtain ⟨c, hc, hid⟩ := hmem
    obtain ⟨-, j, hj1, -, hj3⟩ := chunkRows_ids link (i + 1) xs c hc
    rw [hj3] at hid
    have := (mkChunkId_inj hid).2
    omega

theorem chunkRows_content (link : Str) :
    ∀ i cs c, c ∈ chunkRows link i cs → c.content ∈ cs := by
  intro i cs
  induction cs generalizing i with
  | nil => intro c hc; simp [chunkRows] at hc
  | cons x xs ih =>
    intro c hc
    simp only [chunkRows, List.mem_cons] at hc
    rcases hc with hc | hc
    · subst hc; simp
    · exact List.mem_cons_of_mem _ (ih (i + 1) c hc)

theorem chunkRecords_ids_nodup (split : Str → List Str) (data : List (Str × Str))
    (h : (data.map Prod.fst).Nodup) :
    ((chunkRecords split data).map (fun c => c.chunk_id)).Nodup := by
  induction data with
  | nil => simp [chunkRecords]
  | cons p rest ih =>
    rw [List.map_cons, List.nodup_cons] at h
    simp only [chunkRecords, List.flatMap_cons, List.map_append]
    refine List.Nodup.append (chunkRows_ids_nodup p.1 0 _) (ih h.2) ?_
    intro id hid1 hid2
    rw [List.mem_map] at hid1 hid2
    obtain ⟨c, hc, hcid⟩ := hid1
    obtain ⟨c', hc', hcid'⟩ := hid2
    obtain ⟨-, j, -, -, hj⟩ := chunkRows_ids p.1 0 _ c hc
    simp only [chunkRecords, List.mem_flatMap] at hc'
    obtain ⟨q, hq, hcq⟩ := hc'
    obtain ⟨-, j', -, -, hj'⟩ := chunkRows_ids q.1 0 _ c' hcq
    have : mkChunkId p.1 j = mkChunkId q.1 j' := by rw [← hj, ← hj', hcid, hcid']
    have hpq := (mkChunkId_inj this).1
    exact h.1 (hpq ▸ List.mem_map_of_mem Prod.fst hq)

/-- The conclusion of claim C4: every emitted chunk's id is
`f"{data_link}_chunk_{ordinal}"` for an ordinal below the piece count of its
source, every (link, ordinal) pair is represented, and no two chunks share a
chunk id. -/
def ChunkIdsCorrect (split : Str → List Str) (data : List (Str × Str)) : Prop :=
  (∀ c ∈ chunkRecords split data,
      ∃ p ∈ data, ∃ j, j < (split p.2).length ∧ c.data_link = p.1 ∧
        c.chunk_id = mkChunkId p.1 j) ∧
  (∀ p ∈ data, ∀ j, j < (split p.2).length →
      ∃ c ∈ chunkRecords split data, c.data_link = p.1 ∧ c.chunk_id = mkChunkId p.1 j) ∧
  ((chunkRecords split data).map (fun c => c.chunk_id)).Nodup

/-- C4: for every input mapping whose keys are distinct, the chunker emits
for each (LinkIdentifier, ordinal) a chunk with id
`"{LinkIdentifier}_chunk_{ordinal}"`, and no two chunks across the whole
output share a chunk id — for any splitting function. -/
theorem chunk_ids_formula_and_unique (split : Str → List Str) (data : List (Str × Str))
    (h : (data.map Prod.fst).Nodup) : ChunkIdsCorrect split data := by
  refine ⟨?_, ?_, chunkRecords_ids_nodup split data h⟩
  · intro c hc
    simp only [chunkRecords, List.mem_flatMap] at hc
    obtain ⟨p, hp, hcp⟩ := hc
    obtain ⟨h1, j, -, hj2, hj3⟩ := chunkRows_ids p.1 0 _ c hcp
    exact ⟨p, hp, j, by simpa using hj2, h1, hj3⟩
  · intro p hp j hj
    obtain ⟨c, hc, h1, h2⟩ := chunkRows_complete p.1 0 (split p.2) j hj
    refine ⟨c, ?_, h1, by simpa using h2⟩
    simp only [chunkRecords, List.mem_flatMap]
    exact ⟨p, hp, hc⟩

/-- Concrete dataset for the C4 witness. -/
def exChunkData : List (Str × Str) :=
  [(str "https://x/a", str "Hello world."), (str "https://x/b", str "Bye.")]

/-- Witness for C4 at a concrete dataset and a splitter that cuts each
content in two. -/
theorem chunk_ids_formula_and_unique_witness :
    ChunkIdsCorrect (fun s => [s.take 6, s.drop 6]) exChunkData :=
  chunk_ids_formula_and_unique (fun s => [s.take 6, s.drop 6]) exChunkData (by decide)

/-! ## The text splitter, modelled from the spec

`RecursiveCharacterTextSplitter(chunk_size, chunk_overlap).split_text`
(src/app/chunker.py line 15) is external langchain code, so the splitting
algorithm is modelled from spec §4.2: recursive boundary-preferring split —
split on the coarsest semantic boundary, recursively split any piece that
still exceeds the bound on the next-finer boundary, cut at raw characters
last, and stitch `overlap` characters of trailing context from each piece
into its successor, the stitched chunk staying within `maxSize`. -/

/-- Modelled from the spec: the boundary hierarchy of §4.2 — paragraph
break, then sentence end, then word gap; raw characters are the fallback. -/
def boundaries : List Char := ['\n', '.', ' ']

/-- Splitting a text at every occurrence of one boundary character. -/
def splitOnChar (c : Char) : Str → List Str
  | [] => [[]]
  | a :: rest =>
    if a = c then [] :: splitOnChar c rest
    else
      match splitOnChar c rest with
      | [] => [[a]]
      | g :: gs => (a :: g) :: gs

/-- Cutting a text into consecutive blocks of at most `w` characters; `fuel`
is at least the text length. -/
def chopFuel (w : Nat) : Nat → Str → List Str
  | _, [] => []
  | 0, l => [l]
  | fuel + 1, a :: rest => (a :: rest.take (w - 1)) :: chopFuel w fuel (rest.drop (w - 1))

/-- The raw-character fallback of the recursive split. -/
def chop (w : Nat) (text : Str) : List Str := chopFuel w text.length text

/-- Modelled from the spec §4.2: split on the coarsest boundary of `seps`
that is left; a piece within the width `w` is kept, a longer one is split
again on the next-finer boundary, and raw characters are the last resort. -/
def splitPieces (w : Nat) : List Char → Str → List Str
  | [], text => chop w text
  | b :: finer, text =>
    (splitOnChar b text).flatMap fun piece =>
      if piece.length ≤ w then [piece] else splitPieces w finer piece

/-- The last `n` characters of a piece: the trailing context the spec
stitches into the next piece. -/
def lastN (n : Nat) (l : Str) : Str := l.drop (l.length - n)

/-- Overlap stitching (spec §4.2): every piece after the first starts with
the last `overlap` characters of its predecessor. -/
def stitch (overlap : Nat) : Str → List Str → List Str
  | _, [] => []
  | prev, p :: ps => (lastN overlap prev ++ p) :: stitch overlap p ps

/-- Modelled from the spec: the splitter's `split_text`.  Empty input yields
zero chunks; an input no longer than `maxSize` yields exactly one chunk with
zero overlap applied; otherwise the text is recursively split into pieces of
at most `maxSize - overlap` characters and stitched, so a chunk and the
overlap it carries stay within `maxSize`. -/
def split_text (maxSize overlap : Nat) (text : Str) : List Str :=
  if text = [] then []
  else if text.length ≤ maxSize then [text]
  else
    match splitPieces (maxSize - overlap) boundaries text with
    | [] => []
    | p :: ps => p :: stitch overlap p ps

theorem chopFuel_length_le (w : Nat) (hw : 1 ≤ w) :
    ∀ fuel text, text.length ≤ fuel → ∀ p ∈ chopFuel w fuel text, p.length ≤ w := by
  intro fuel
  induction fuel with
  | zero =>
    intro text htext p hp
    have : text = [] := List.eq_nil_of_length_eq_zero (by omega)
    subst this
    simp [chopFuel] at hp
  | succ f ih =>
    intro text htext p hp
    cases text with
    | nil => simp [chopFuel] at hp
    | cons a rest =>
      simp only [chopFuel, List.mem_cons] at hp
      rcases hp with hp | hp
      · subst hp
        simp only [List.length_cons, List.length_take]
        omega
      · refine ih (rest.drop (w - 1)) ?_ p hp
        simp only [List.length_drop]
        simp only [List.length_cons] at htext
        omega

theorem chop_length_le (w : Nat) (hw : 1 ≤ w) (text : Str) :
    ∀ p ∈ chop w text, p.length ≤ w :=
  chopFuel_length_le w hw text.length text (Nat.le_refl _)

theorem splitPieces_length_le (w : Nat) (hw : 1 ≤ w) :
    ∀ seps text, ∀ p ∈ splitPieces w seps text, p.length ≤ w := by
  intro seps
  induction seps with
  | nil => intro text p hp; exact chop_length_le w hw text p hp
  | cons b finer ih =>
    intro text p hp
    simp only [splitPieces, List.mem_flatMap] at hp
    obtain ⟨piece, -, hpp⟩ := hp
    by_cases h : piece.length ≤ w
    · simp only [if_pos h, List.mem_singleton] at hpp
      subst hpp; exact h
    · simp only [if_neg h] at hpp
      exact ih piece p hpp

theorem lastN_length_le (n : Nat) (l : Str) : (lastN n l).length ≤ n := by
  simp only [lastN, List.length_drop]
  omega

theorem stitch_length_le (overlap w : Nat) :
    ∀ ps prev, (∀ q ∈ ps, q.length ≤ w) →
      ∀ p ∈ stitch overlap prev ps, p.length ≤ overlap + w := by
  intro ps
  induction ps with
  | nil => intro prev hps p hp; simp [stitch] at hp
  | cons q qs ih =>
    intro prev hps p hp
    simp only [stitch, List.mem_cons] at hp
    rcases hp with hp | hp
    · subst hp
      have h1 := lastN_length_le overlap prev
      have h2 := hps q (by simp)
      simp only [List.length_append]
      omega
    · exact ih q (fun r hr => hps r (by simp [hr])) p hp

theorem split_text_length_le (maxSize overlap : Nat) (h : overlap < maxSize) (text : Str) :
    ∀ p ∈ split_text maxSize overlap text, p.length ≤ maxSize := by
  intro p hp
  unfold split_text at hp
  by_cases h0 : text = []
  · simp [h0] at hp
  · rw [if_neg h0] at hp
    by_cases h1 : text.length ≤ maxSize
    · rw [if_pos h1] at hp
      simp only [List.mem_singleton] at hp
      subst hp; exact h1
    · rw [if_neg h1] at hp
      have hw : 1 ≤ maxSize - overlap := by omega
      have hpieces := splitPieces_length_le (maxSize - overlap) hw boundaries text
      cases hsp : splitPieces (maxSize - overlap) boundaries text with
      | nil => rw [hsp] at hp; simp at hp
      | cons q qs =>
        rw [hsp] at hp
        simp only [List.mem_cons] at hp
        rcases hp with hp | hp
        · subst hp
          have := hpieces p (by rw [hsp]; simp)
          omega
        · have hqs : ∀ r ∈ qs, r.length ≤ maxSize - overlap := by
            intro r hr; exact hpieces r (by rw [hsp]; simp [hr])
          have := stitch_length_le overlap (maxSize - overlap) qs q hqs p hp
          omega

/-- C7: with `maxSize > overlap ≥ 0`, every chunk text the chunking
operation produces has length at most `maxSize`. -/
theorem chunk_size_bound (maxSize overlap : Nat) (data : List (Str × Str))
    (h : overlap < maxSize) :
    ∀ c ∈ chunkRecords (split_text maxSize overlap) data, c.content.length ≤ maxSize := by
  intro c hc
  simp only [chunkRecords, List.mem_flatMap] at hc
  obtain ⟨p, -, hcp⟩ := hc
  exact split_text_length_le maxSize overlap h p.2 c.content
    (chunkRows_content p.1 0 _ c hcp)

/-- Witness for C7 at the spec's example scenario: `maxSize = 15`,
`overlap = 3`, one page of content. -/
theorem chunk_size_bound_witness :
    ((chunkRecords (split_text 15 3)
        [(str "https://x/a", str "Hello world. This is page A.")]).all
      fun c => decide (c.content.length ≤ 15)) = true := by
  rw [List.all_eq_true]
  intro c hc
  simpa using chunk_size_bound 15 3 [(str "https://x/a", str "Hello world. This is page A.")]
    (by omega) c hc

/-! ## File-system behaviour of `chunk_content` (`src/app/chunker.py` lines 5-35)

`inputFs` maps input paths to parsed dataset dicts, `outFs` maps output
paths to written chunk files.  A missing input file raises
`FileNotFoundError(f"Input file not found: {input_file}")` before anything
is written; otherwise the chunk list — possibly empty — is computed and
written to `output_file`.  The result pairs the raised error message, if
any, with the output file system afterwards. -/

def chunk_content (split : Str → List Str)
    (inputFs : List (Str × List (Str × Str))) (outFs : List (Str × List Chunk))
    (input_file output_file : Str) : Option Str × List (Str × List Chunk) :=
  match dictGet inputFs input_file with
  | none => (some (str "Input file not found: " ++ input_file), outFs)
  | some data => (none, dictInsert outFs output_file (chunkRecords split data))

/-- Counterexample to C10: on an empty dataset `chunk_content` does not fail
fast — it returns normally (no error) and writes an output file holding an
empty chunk list. -/
theorem chunk_content_empty_dataset_counterexample :
    chunk_content (fun s => [s]) [(str "./data/data_links_with_content.json", [])] []
        (str "./data/data_links_with_content.json") (str "./data/content_chunks.json")
      = (none, [(str "./data/content_chunks.json", [])]) := by
  decide

/-- C10 as amended: a missing source file fails fast with a descriptive
`FileNotFoundError` naming the path and writes no output; an empty dataset
is not rejected — the run completes without error and writes an empty chunk
list to the output file. -/
theorem chunk_content_missing_input_amended (split : Str → List Str)
    (inputFs : List (Str × List (Str × Str))) (outFs : List (Str × List Chunk))
    (input_file output_file : Str)
    (h : dictGet inputFs input_file = none) :
    chunk_content split inputFs outFs input_file output_file =
        (some (str "Input file not found: " ++ input_file), outFs) ∧
    (∀ outFs', chunk_content split (dictInsert inputFs input_file []) outFs'
        input_file output_file = (none, dictInsert outFs' output_file [])) := by
  constructor
  · unfold chunk_content
    rw [h]
  · intro outFs'
    unfold chunk_content
    rw [dictGet_dictInsert]
    rfl

/-- Witness for C10's amended claim at a concrete file system with the
input file absent. -/
theorem chunk_content_missing_input_amended_witness :
    chunk_content (fun s => [s]) [] [] (str "./data/in.json") (str "./data/out.json")
        = (some (str "Input file not found: ./data/in.json"), []) ∧
    (∀ outFs', chunk_content (fun s => [s]) (dictInsert [] (str "./data/in.json") []) outFs'
        (str "./data/in.json") (str "./data/out.json")
        = (none, dictInsert outFs' (str "./data/out.json") [])) := by
  have h := chunk_content_missing_input_amended (fun s => [s]) [] []
    (str "./data/in.json") (str "./data/out.json") (by decide)
  exact ⟨by rw [h.1]; decide, h.2⟩

/-! ## Index fingerprints (`src/app/streamlit-chat.py` lines 19-26) -/

/-- The hexadecimal digit character for `d % 16`: a decimal digit below
ten, a lowercase letter above. -/
def hexChar (d : Nat) : Char :=
  if d % 16 < 10 then digitChar (d % 16)
  else ['a', 'b', 'c', 'd', 'e', 'f'].getD (d % 16 - 10) 'a'

/-- Hexadecimal digits of `n`, most significant first; any `fuel > n` is
enough. -/
def toHexDigits : Nat → Nat → List Char
  | 0, _ => []
  | fuel + 1, n =>
    if n < 16 then [hexChar n] else toHexDigits fuel (n / 16) ++ [hexChar (n % 16)]

/-- Modelled from the spec: `hashlib.md5(unique_string.encode()).hexdigest()`
(external Python stdlib, the spec's "stable hash (e.g. content digest)").  A
deterministic hex digest of the input; the claims below depend only on its
determinism and on which string is digested, never on the digest's
internals. -/
def md5hex (s : Str) : Str :=
  toHexDigits (s.foldl (fun a c => (a * 131 + c.toNat) % 1099511627776) 5381 + 1)
    (s.foldl (fun a c => (a * 131 + c.toNat) % 1099511627776) 5381)

/-- `get_index_name` (src/app/streamlit-chat.py lines 19-26): digest of the
joined string `f"{json_file_path}_{embedding_model_name}"`, under the
`"faiss_index_"` name. -/
def get_index_name (json_file_path embedding_model_name : Str) : Str :=
  str "faiss_index_" ++ md5hex (json_file_path ++ str "_" ++ embedding_model_name)

/-- Counterexample to C2: the pairs `("a_b", "c")` and `("a", "b_c")` differ
in both components, yet their joined strings coincide, so their fingerprints
are identical with certainty — not merely up to hash collision. -/
theorem get_index_name_counterexample :
    get_index_name (str "a_b") (str "c") = get_index_name (str "a") (str "b_c") ∧
    (str "a_b", str "c") ≠ (str "a", str "b_c") := by
  exact ⟨rfl, by decide⟩

/-- C2 as amended: the fingerprint is deterministic, and it depends on the
two arguments only through the joined string `path ++ "_" ++ model`: pairs
with equal joins always collide, and fingerprints are equal exactly when the
digests of the joins are. -/
theorem get_index_name_amended :
    (∀ p m : Str, get_index_name p m = get_index_name p m) ∧
    (∀ p₁ m₁ p₂ m₂ : Str, p₁ ++ str "_" ++ m₁ = p₂ ++ str "_" ++ m₂ →
        get_index_name p₁ m₁ = get_index_name p₂ m₂) ∧
    (∀ p₁ m₁ p₂ m₂ : Str, get_index_name p₁ m₁ = get_index_name p₂ m₂ →
        md5hex (p₁ ++ str "_" ++ m₁) = md5hex (p₂ ++ str "_" ++ m₂)) := by
  refine ⟨fun p m => rfl, fun p₁ m₁ p₂ m₂ h => by unfold get_index_name; rw [h], ?_⟩
  intro p₁ m₁ p₂ m₂ h
  unfold get_index_name at h
  exact List.append_cancel_left h

/-! ## The FAISS vector-index cache (`src/app/streamlit-chat.py` lines 58-116)

`FAISS`, `HuggingFaceEmbeddings` and the on-disk index format are external;
the embedding service is passed as the function `embed`, and the persisted
store is modelled from the spec's §6 boundary: a saved index round-trips
through persist and load with identical behaviour, so the disk maps the
index path to the store value itself. -/

/-- One FAISS entry: the embedding vector, the embedded text and the
metadata `{"data_link": .., "chunk_id": ..}` kept with it. -/
structure VSEntry where
  vector : List Int
  text : Str
  data_link : Str
  chunk_id : Str
deriving DecidableEq, Repr

/-- The in-memory FAISS vector store. -/
structure VectorStore where
  entries : List VSEntry
deriving DecidableEq, Repr

/-- `FAISS.from_texts(texts, embedding, metadatas)` (external langchain
code, modelled from the spec): embeds every text once, in order, pairing it
with its metadata. -/
def FAISS_from_texts (embed : Str → List Int) (texts : List Str)
    (metadatas : List (Str × Str)) : VectorStore :=
  ⟨(texts.zip metadatas).map fun tm => ⟨embed tm.1, tm.1, tm.2.1, tm.2.2⟩⟩

/-- `FAISS_INDEX_DIR` (src/app/streamlit-chat.py line 17). -/
def FAISS_INDEX_DIR : Str := str "./faiss_indices"

/-- `os.path.join(FAISS_INDEX_DIR, get_index_name(...))`. -/
def indexPath (json_file_path embedding_model_name : Str) : Str :=
  FAISS_INDEX_DIR ++ str "/" ++ get_index_name json_file_path embedding_model_name

/-- The persisted-index store: the disk under `FAISS_INDEX_DIR`. -/
structure CacheEnv where
  disk : List (Str × VectorStore)
deriving DecidableEq, Repr

/-- `create_vector_store` (src/app/streamlit-chat.py lines 58-91): embed
each chunk's content via `FAISS.from_texts`, save the store at the
fingerprint path, return (store, path).  The last component records, in
order, every text the embedding service embedded during the call. -/
def create_vector_store (embed : Str → List Int) (chunks : List Chunk)
    (embedding_model_name json_file_path : Str) (env : CacheEnv) :
    (VectorStore × Str) × CacheEnv × List Str :=
  let texts := chunks.map fun c => c.content
  let metadatas := chunks.map fun c => (c.data_link, c.chunk_id)
  let vector_store := FAISS_from_texts embed texts metadatas
  let index_path := indexPath json_file_path embedding_model_name
  ((vector_store, index_path), ⟨dictInsert env.disk index_path vector_store⟩, texts)

/-- `load_or_create_vector_store` (src/app/streamlit-chat.py lines 93-116):
when a store is persisted at the fingerprint path it is deserialised
(`FAISS.load_local`) and returned, embedding nothing; otherwise
`create_vector_store` builds and saves one.  The last component records the
texts embedded during the call. -/
def load_or_create_vector_store (embed : Str → List Int) (chunks : List Chunk)
    (embedding_model_name json_file_path : Str) (env : CacheEnv) :
    VectorStore × CacheEnv × List Str :=
  match dictGet env.disk (indexPath json_file_path embedding_model_name) with
  | some vector_store => (vector_store, env, [])
  | none =>
    let r := create_vector_store embed chunks embedding_model_name json_file_path env
    (r.1.1, r.2.1, r.2.2)

/-- C3: when a persisted index exists at the fingerprint path,
`load_or_create_vector_store` returns it as loaded from disk, embeds no
chunk and leaves the disk unchanged; otherwise it embeds each chunk's
content exactly once and in order, persists the built store at the
fingerprint path and returns it. -/
theorem load_or_create_cache_behaviour (embed : Str → List Int) (chunks : List Chunk)
    (embedding_model_name json_file_path : Str) (env : CacheEnv) :
    (∀ ix, dictGet env.disk (indexPath json_file_path embedding_model_name) = some ix →
      load_or_create_vector_store embed chunks embedding_model_name json_file_path env
        = (ix, env, [])) ∧
    (dictGet env.disk (indexPath json_file_path embedding_model_name) = none →
      load_or_create_vector_store embed chunks embedding_model_name json_file_path env
        = (FAISS_from_texts embed (chunks.map fun c => c.content)
            (chunks.map fun c => (c.data_link, c.chunk_id)),
          ⟨dictInsert env.disk (indexPath json_file_path embedding_model_name)
            (FAISS_from_texts embed (chunks.map fun c => c.content)
              (chunks.map fun c => (c.data_link, c.chunk_id)))⟩,
          chunks.map fun c => c.content) ∧
      dictGet (load_or_create_vector_store embed chunks embedding_model_name
          json_file_path env).2.1.disk
          (indexPath json_file_path embedding_model_name)
        = some (load_or_create_vector_store embed chunks embedding_model_name
            json_file_path env).1) := by
  constructor
  · intro ix hix
    unfold load_or_create_vector_store
    rw [hix]
  · intro hnone
    have hmain : load_or_create_vector_store embed chunks embedding_model_name json_file_path env
        = (FAISS_from_texts embed (chunks.map fun c => c.content)
            (chunks.map fun c => (c.data_link, c.chunk_id)),
          ⟨dictInsert env.disk (indexPath json_file_path embedding_model_name)
            (FAISS_from_texts embed (chunks.map fun c => c.content)
              (chunks.map fun c => (c.data_link, c.chunk_id)))⟩,
          chunks.map fun c => c.content) := by
      unfold load_or_create_vector_store
      rw [hnone]
      rfl
    refine ⟨hmain, ?_⟩
    rw [hmain]
    exact dictGet_dictInsert _ _ _

/-- A concrete persisted store for the cache witnesses. -/
def exStore : VectorStore := ⟨[⟨[2], str "hi", str "https://x/a", str "https://x/a_chunk_0"⟩]⟩

/-- A concrete disk holding `exStore` at the fingerprint path of
`("./data/content_chunks.json", "m")`. -/
def exEnv : CacheEnv :=
  ⟨[(indexPath (str "./data/content_chunks.json") (str "m"), exStore)]⟩

/-- Witness for C3 at a concrete cache hit: the persisted store comes back
as-is, nothing is embedded, the disk is untouched. -/
theorem load_or_create_cache_behaviour_witness :
    load_or_create_vector_store (fun s => [(s.length : Int)]) [] (str "m")
        (str "./data/content_chunks.json") exEnv = (exStore, exEnv, []) :=
  (load_or_create_cache_behaviour (fun s => [(s.length : Int)]) [] (str "m")
      (str "./data/content_chunks.json") exEnv).1 exStore (by decide)

/-! ## Deleting a persisted index (`src/app/streamlit-chat.py` lines 286-293) -/

/-- `os.remove(path)` (external OS call): removes the file, or errors when
the path does not exist. -/
def os_remove (disk : List (Str × VectorStore)) (p : Str) :
    Except Str (List (Str × VectorStore)) :=
  match dictGet disk p with
  | some _ => .ok (dictErase disk p)
  | none => .error (str "FileNotFoundError: " ++ p)

/-- The "Delete Existing Vector Store" handler (src/app/streamlit-chat.py
lines 286-293): compute the fingerprint path; when a file exists there,
remove it and report success, otherwise do nothing and report that none was
found.  `Except.error` would carry an uncaught OS error. -/
def delete_vector_store (json_file_path embedding_model_name : Str) (env : CacheEnv) :
    Except Str (CacheEnv × Str) :=
  if (dictGet env.disk (indexPath json_file_path embedding_model_name)).isSome then
    match os_remove env.disk (indexPath json_file_path embedding_model_name) with
    | .ok disk => .ok (⟨disk⟩, str "Existing FAISS vector store deleted.")
    | .error e => .error e
  else .ok (env, str "No existing FAISS vector store found to delete.")

/-- C9: deletion always returns normally — never an error — removing the
persisted index at the fingerprint path when one is present and leaving the
disk untouched when none is. -/
theorem delete_removes_or_noop (json_file_path embedding_model_name : Str) (env : CacheEnv) :
    ∃ msg, delete_vector_store json_file_path embedding_model_name env =
      .ok (⟨if (dictGet env.disk (indexPath json_file_path embedding_model_name)).isSome
            then dictErase env.disk (indexPath json_file_path embedding_model_name)
            else env.disk⟩, msg) := by
  unfold delete_vector_store
  cases hs : dictGet env.disk (indexPath json_file_path embedding_model_name) with
  | some v =>
    refine ⟨str "Existing FAISS vector store deleted.", ?_⟩
    simp only [Option.isSome_some, if_pos]
    unfold os_remove
    rw [hs]
  | none =>
    refine ⟨str "No existing FAISS vector store found to delete.", ?_⟩
    simp only [Option.isSome_none, Bool.false_eq_true, if_false]

/-! ## URLs and their normalisation

`urllib.parse.urljoin`, `urllib.parse.urlparse` and `tldextract` are
external Python libraries — the spec's UrlNormalizer leaf and its
registrable-domain notion — so they are modelled from the spec's words
here.  The crawler claims below do not depend on the details of link
resolution, only on the fragment branch (`#...` resolved against the
current page) and on scheme detection. -/

/-- Characters allowed inside a URL scheme after its first letter. -/
def isSchemeChar (c : Char) : Bool :=
  c.isAlpha || c.isDigit || c = '+' || c = '-' || c = '.'

/-- Scheme characters up to a terminating `':'`. -/
def schemeTail : Str → Bool
  | [] => false
  | c :: rest => if c = ':' then true else if isSchemeChar c then schemeTail rest else false

/-- Modelled from the spec: whether a URL is absolute — it opens with a
scheme such as `https:` (a letter, scheme characters, then `':'`). -/
def hasScheme : Str → Bool
  | [] => false
  | c :: rest => c.isAlpha && schemeTail rest

/-- Python `s.startswith("#")`. -/
def startsWithHash : Str → Bool
  | [] => false
  | c :: _ => c == '#'

/-- The URL up to its fragment part. -/
def stripFragment (s : Str) : Str := s.takeWhile fun c => c ≠ '#'

/-- The host part: what follows `scheme://`, up to a path, query or
fragment delimiter; a bare hostname is returned whole. -/
def hostOf (s : Str) : Str :=
  let t := if hasScheme s then s.drop ((s.takeWhile isSchemeChar).length + 1) else s
  let t := if t.take 2 = str "//" then t.drop 2 else t
  t.takeWhile fun c => c ≠ '/' && c ≠ '?' && c ≠ '#'

/-- `urlparse(s).netloc`: nonempty only after a `//`. -/
def netlocOf (s : Str) : Str :=
  let t := if hasScheme s then s.drop ((s.takeWhile isSchemeChar).length + 1) else s
  if t.take 2 = str "//" then
    (t.drop 2).takeWhile fun c => c ≠ '/' && c ≠ '?' && c ≠ '#'
  else []

/-- The directory part of a URL: everything up to and including the last
`'/'` of its query-free core. -/
def dirOf (s : Str) : Str :=
  (((s.takeWhile fun c => c ≠ '?' && c ≠ '#').reverse).dropWhile fun c => c ≠ '/').reverse

/-- The scheme-and-host front of a URL, for root-relative references. -/
def schemeHost (s : Str) : Str :=
  if hasScheme s then
    s.takeWhile isSchemeChar ++ str ":" ++
      (if (s.drop ((s.takeWhile isSchemeChar).length + 1)).take 2 = str "//" then
        str "//" ++ netlocOf s
      else [])
  else str "//" ++ netlocOf s

/-- Modelled from the spec: `urllib.parse.urljoin(base, ref)` — the
UrlNormalizer resolving a relative or fragment link against a base URL into
an absolute URL.  An absolute reference stands alone; a fragment-only
reference replaces the base's fragment; root-relative and relative paths
are resolved against the base's host and directory. -/
def urljoin (base ref : Str) : Str :=
  if ref = [] then base
  else if hasScheme ref then ref
  else if ref.take 2 = str "//" then
    (if hasScheme base then base.takeWhile isSchemeChar ++ str ":" ++ ref else ref)
  else if startsWithHash ref then stripFragment base ++ ref
  else if ref.take 1 = str "/" then schemeHost base ++ ref
  else dirOf base ++ ref

/-- Modelled from the spec: the registrable domain (`tldextract`'s
domain + public suffix), taken as the last two dot-labels of the host. -/
def registrableDomain (u : Str) : Str :=
  let labels := splitOnChar '.' (hostOf u)
  ((labels.drop (labels.length - 2)).intersperse (str ".")).flatten

/-- `is_valid_url` (src/scrape_site_script.py lines 80-85): the scheme is
http, https or empty. -/
def is_valid_url (href : Str) : Bool :=
  let sc := if hasScheme href then href.takeWhile isSchemeChar else []
  sc = str "http" || sc = str "https" || sc = []

/-- `is_same_domain` (src/scrape_site_script.py lines 87-92): registrable
domains of the URL and the domain scope agree. -/
def is_same_domain (url domain : Str) : Bool :=
  registrableDomain domain = registrableDomain url

/-! ## The content crawler (`src/app/crawler.py`)

`scrape_with_content` keeps a module-global visited set and `data_content`
dict.  Its recursive call at line 37, `scrape_with_content(full_url,
base_url, driver)`, passes three arguments to the two-parameter function
(line 12), so Python raises `TypeError` at the first in-scope link; the
blanket `except Exception` at line 38 catches it and the loop ends.
Whether or not an in-scope link exists, the call therefore returns right
after content extraction, having visited no further page — which is what
this embedding does, and what claims C1/C5/C8 are judged against. -/

/-- One page as the crawlers see it: its rendered whole-page text, the
`data-link → text` pairs of elements carrying the marker attribute, and its
anchors' hrefs, in document order. -/
structure Page where
  text : Str
  dataLinks : List (Str × Str)
  anchors : List Str
deriving DecidableEq, Repr

/-- A finite site: its pages by URL, plus the URLs whose fetch/render fails
(Selenium's `driver.get` raising). -/
structure Site where
  pages : List (Str × Page)
  failing : List Str
deriving DecidableEq, Repr

/-- `driver.get(url)` + parsing `driver.page_source` (external Selenium and
BeautifulSoup): `none` models a fetch failure. -/
def fetch (site : Site) (url : Str) : Option Page :=
  if url ∈ site.failing then none else dictGet site.pages url

/-- The crawl state of `src/app/crawler.py` lines 9-10: the module-global
`visited` set and `data_content` dict. -/
structure ContentState where
  visited : List Str
  data_content : List (Str × Str)
deriving DecidableEq, Repr

/-- Lines 26-28 of src/app/crawler.py: a data-link starting with `'#'` is
resolved against the current page's URL; any other is stored verbatim. -/
def resolveDataLink (base_url dl : Str) : Str :=
  if startsWithHash dl then urljoin base_url dl else dl

/-- `scrape_with_content` (src/app/crawler.py lines 12-39).  Guard on the
visited set, mark visited, fetch; on failure the exception is caught and
nothing more happens; on success every marked element's (resolved
data-link, text) pair is written into `data_content`.  The link loop
performs no recursion — see the section comment on the arity slip at line
37. -/
def scrape_with_content (site : Site) (base_url : Str) (st : ContentState) : ContentState :=
  if base_url ∈ st.visited then st
  else
    match fetch site base_url with
    | none => ⟨base_url :: st.visited, st.data_content⟩
    | some page =>
      ⟨base_url :: st.visited,
        page.dataLinks.foldl
          (fun m p => dictInsert m (resolveDataLink base_url p.1) p.2) st.data_content⟩

/-- The spec's 3-page example site: A links to B and C, C links back to A. -/
def siteABC : Site :=
  ⟨[(str "https://a.com/",
      ⟨str "A", [], [str "https://a.com/b", str "https://a.com/c"]⟩),
    (str "https://a.com/b", ⟨str "B", [], []⟩),
    (str "https://a.com/c", ⟨str "C", [], [str "https://a.com/"]⟩)], []⟩

/-- C5, evaluated at the failing input: on the 3-page cyclic site the
crawl of src/app/crawler.py ends with visited = {A} alone — the recursive
call's arity slip (line 37) aborts every descent — where the claim expects
exactly {A, B, C}. -/
theorem crawler_cycle_scenario_visits_start_only :
    (scrape_with_content siteABC (str "https://a.com/") ⟨[], []⟩).visited
        = [str "https://a.com/"] ∧
    (scrape_with_content siteABC (str "https://a.com/") ⟨[], []⟩).visited
        ≠ [str "https://a.com/", str "https://a.com/b", str "https://a.com/c"] := by
  constructor
  · rfl
  · decide

/-- A page whose marked element carries a relative, non-fragment
data-link. -/
def siteRelLink : Site :=
  ⟨[(str "https://a.com/",
      ⟨str "A", [(str "about.html", str "About text")], []⟩)], []⟩

/-- Counterexample to C8: a data-link not starting with `'#'` is stored
verbatim (src/app/crawler.py line 30), so the accumulated mapping holds the
relative key `"about.html"`, which is not an absolute URL. -/
theorem link_identifier_absolute_counterexample :
    dictGet (scrape_with_content siteRelLink (str "https://a.com/") ⟨[], []⟩).data_content
        (str "about.html") = some (str "About text") ∧
    hasScheme (str "about.html") = false := by
  constructor
  · rfl
  · decide

theorem hasScheme_head_alpha {s : Str} (h : hasScheme s = true) :
    ∃ c rest, s = c :: rest ∧ c.isAlpha = true := by
  cases s with
  | nil => simp [hasScheme] at h
  | cons c rest =>
    simp only [hasScheme, Bool.and_eq_true] at h
    exact ⟨c, rest, rfl, h.1⟩

theorem isAlpha_ne_hash {c : Char} (hc : c.isAlpha = true) : c ≠ '#' := by
  intro hceq
  subst hceq
  simp [Char.isAlpha, Char.isUpper, Char.isLower] at hc

theorem startsWithHash_stripFragment_append {base tail : Str}
    (hb : hasScheme base = true) :
    startsWithHash (stripFragment base ++ '#' :: tail) = false := by
  obtain ⟨c, rest, hbase, hc⟩ := hasScheme_head_alpha hb
  subst hbase
  have hcne : c ≠ '#' := isAlpha_ne_hash hc
  have hstrip : stripFragment (c :: rest) = c :: rest.takeWhile fun d => d ≠ '#' := by
    simp only [stripFragment, List.takeWhile_cons]
    rw [if_pos (by simpa using hcne)]
  rw [hstrip, List.cons_append]
  simp [startsWithHash, hcne]

theorem hasScheme_hash_cons (tail : Str) : hasScheme ('#' :: tail) = false := by
  simp [hasScheme, Char.isAlpha, Char.isUpper, Char.isLower]

theorem startsWithHash_urljoin_hash (base_url tail : Str) (hb : hasScheme base_url = true) :
    startsWithHash (urljoin base_url ('#' :: tail)) = false := by
  unfold urljoin
  rw [if_neg (by simp), if_neg (by rw [hasScheme_hash_cons]; simp),
    if_neg (by simp [List.take, str]), if_pos (by simp [startsWithHash])]
  exact startsWithHash_stripFragment_append hb

theorem startsWithHash_resolveDataLink (base_url dl : Str) (hb : hasScheme base_url = true) :
    startsWithHash (resolveDataLink base_url dl) = false := by
  unfold resolveDataLink
  by_cases hd : startsWithHash dl = true
  · rw [if_pos hd]
    cases dl with
    | nil => simp [startsWithHash] at hd
    | cons c tail =>
      have hc : c = '#' := by simpa [startsWithHash] using hd
      subst hc
      exact startsWithHash_urljoin_hash base_url tail hb
  · rw [if_neg hd]
    simpa using hd

theorem foldl_dictInsert_keys (P : Str → Prop) (f : Str × Str → Str)
    (hf : ∀ p, P (f p)) :
    ∀ (links : List (Str × Str)) (m : List (Str × Str)),
      (∀ k ∈ m.map Prod.fst, P k) →
      ∀ k ∈ (links.foldl (fun m p => dictInsert m (f p) p.2) m).map Prod.fst, P k := by
  intro links
  induction links with
  | nil => intro m hm k hk; exact hm k hk
  | cons p rest ih =>
    intro m hm k hk
    rw [List.foldl_cons] at hk
    refine ih (dictInsert m (f p) p.2) ?_ k hk
    intro k' hk'
    rcases dictInsert_keys m (f p) p.2 k' hk' with h | h
    · subst h; exact hf p
    · exact hm k' h

/-- C8 as amended: with an absolute crawl URL, every key newly stored into
the accumulated `data_content` mapping avoids a leading `'#'` — a
fragment-only data-link is resolved against the current page's URL before
storage — but a data-link not starting with `'#'` is stored verbatim and
may be relative. -/
theorem crawler_stored_keys_never_fragment (site : Site) (base_url : Str) (st : ContentState)
    (hb : hasScheme base_url = true)
    (hst : ∀ k ∈ st.data_content.map Prod.fst, startsWithHash k = false) :
    ∀ k ∈ (scrape_with_content site base_url st).data_content.map Prod.fst,
      startsWithHash k = false := by
  unfold scrape_with_content
  by_cases hv : base_url ∈ st.visited
  · rw [if_pos hv]; exact hst
  · rw [if_neg hv]
    cases hf : fetch site base_url with
    | none => exact hst
    | some page =>
      exact foldl_dictInsert_keys (fun k => startsWithHash k = false)
        (fun p => resolveDataLink base_url p.1)
        (fun p => startsWithHash_resolveDataLink base_url p.1 hb)
        page.dataLinks st.data_content hst

/-- A page carrying both a fragment-only data-link and an absolute one. -/
def siteHashLink : Site :=
  ⟨[(str "https://a.com/page",
      ⟨str "A", [(str "#frag", str "t1"), (str "https://a.com/x", str "t2")], []⟩)], []⟩

/-- Witness for C8's amended claim on a page with a fragment-only
data-link: no stored key starts with `'#'`. -/
theorem crawler_stored_keys_never_fragment_witness :
    (((scrape_with_content siteHashLink (str "https://a.com/page") ⟨[], []⟩).data_content.map
        Prod.fst).all fun k => !startsWithHash k) = true := by
  rw [List.all_eq_true]
  intro k hk
  have := crawler_stored_keys_never_fragment siteHashLink (str "https://a.com/page") ⟨[], []⟩
    (by decide) (by intro k' hk'; simp at hk') k hk
  simp [this]

/-! ## The whole-site crawler (`src/scrape_site_script.py`)

`scrape_site` recursively visits in-scope pages, guarded by the module
global `visited_urls` set and a depth bound.  The recursion on
`current_depth`/`max_depth` is embedded structurally through the remaining
depth `gas = max_depth + 1 - current_depth`: `gas = 0` exactly when
`current_depth > max_depth`, and each recursive call at `current_depth + 1`
carries `gas - 1`. -/

/-- The crawl state: the module-global `visited_urls` set (line 11), the
sequence of `driver.get` calls issued, and the page texts saved by
`save_page_text` / `save_to_combined_file` in visit order. -/
structure ScrapeState where
  visited : List Str
  fetchTrace : List Str
  pageTexts : List (Str × Str)
deriving DecidableEq, Repr

/-- Lines 48-52 of src/scrape_site_script.py: each anchor href resolved
against the current page, kept when processable and inside the domain
scope, in document order. -/
def childLinks (base_url : Str) (page : Page) (domain : Str) : List Str :=
  (page.anchors.map fun href => urljoin base_url href).filter
    fun full_url => is_valid_url full_url && is_same_domain full_url domain

/-- `scrape_site` (src/scrape_site_script.py lines 25-52) on remaining
depth `gas`: return when the URL is visited or the depth bound is passed;
otherwise mark visited, attempt the fetch (recorded in `fetchTrace`); a
fetch failure is caught and the call returns; otherwise the page text is
saved and every in-scope child is crawled in order, one level deeper. -/
def scrapeAux (site : Site) (domain : Str) : Nat → Str → ScrapeState → ScrapeState
  | 0, _, st => st
  | gas + 1, base_url, st =>
    if base_url ∈ st.visited then st
    else
      match fetch site base_url with
      | none => ⟨base_url :: st.visited, st.fetchTrace ++ [base_url], st.pageTexts⟩
      | some page =>
        (childLinks base_url page domain).foldl
          (fun s u => scrapeAux site domain gas u s)
          ⟨base_url :: st.visited, st.fetchTrace ++ [base_url],
            st.pageTexts ++ [(base_url, page.text)]⟩

/-- `scrape_site(driver, base_url, domain, ..., max_depth, current_depth)`
(src/scrape_site_script.py line 25), via the remaining-depth embedding. -/
def scrape_site (site : Site) (base_url domain : Str) (max_depth current_depth : Nat)
    (st : ScrapeState) : ScrapeState :=
  scrapeAux site domain (max_depth + 1 - current_depth) base_url st

/-- One crawl call's effect on the state: the visited set only grows, and
the fetch trace is extended by pairwise-distinct URLs none of which was
visited before, all of which are visited afterwards. -/
def CrawlStep (st st' : ScrapeState) : Prop :=
  (∀ v ∈ st.visited, v ∈ st'.visited) ∧
  ∃ ext, st'.fetchTrace = st.fetchTrace ++ ext ∧ ext.Nodup ∧
    ∀ v ∈ ext, v ∉ st.visited ∧ v ∈ st'.visited

theorem crawlStep_refl (st : ScrapeState) : CrawlStep st st :=
  ⟨fun _ hv => hv, [], by simp, List.nodup_nil, by simp⟩

theorem crawlStep_trans {a b c : ScrapeState} (hab : CrawlStep a b) (hbc : CrawlStep b c) :
    CrawlStep a c := by
  obtain ⟨mab, e₁, ht₁, hn₁, he₁⟩ := hab
  obtain ⟨mbc, e₂, ht₂, hn₂, he₂⟩ := hbc
  refine ⟨fun v hv => mbc v (mab v hv), e₁ ++ e₂, ?_, ?_, ?_⟩
  · rw [ht₂, ht₁, List.append_assoc]
  · refine List.Nodup.append hn₁ hn₂ ?_
    intro v hv₁ hv₂
    exact (he₂ v hv₂).1 ((he₁ v hv₁).2)
  · intro v hv
    rw [List.mem_append] at hv
    rcases hv with hv | hv
    · exact ⟨(he₁ v hv).1, mbc v (he₁ v hv).2⟩
    · refine ⟨fun hva => (he₂ v hv).1 (mab v hva), (he₂ v hv).2⟩

theorem foldl_crawlStep (f : Str → ScrapeState → ScrapeState)
    (hf : ∀ u st, CrawlStep st (f u st)) :
    ∀ (urls : List Str) (st : ScrapeState),
      CrawlStep st (urls.foldl (fun s u => f u s) st) := by
  intro urls
  induction urls with
  | nil => intro st; exact crawlStep_refl st
  | cons u rest ih =>
    intro st
    rw [List.foldl_cons]
    exact crawlStep_trans (hf u st) (ih (f u st))

theorem scrapeAux_crawlStep (site : Site) (domain : Str) :
    ∀ gas base_url st, CrawlStep st (scrapeAux site domain gas base_url st) := by
  intro gas
  induction gas with
  | zero => intro base_url st; exact crawlStep_refl st
  | succ gas ih =>
    intro base_url st
    unfold scrapeAux
    by_cases hv : base_url ∈ st.visited
    · rw [if_pos hv]; exact crawlStep_refl st
    · rw [if_neg hv]
      have hstep : CrawlStep st
          ⟨base_url :: st.visited, st.fetchTrace ++ [base_url], st.pageTexts⟩ :=
        ⟨fun v hv' => List.mem_cons_of_mem _ hv', [base_url], rfl, List.nodup_singleton _,
          fun v hv' => by
            rw [List.mem_singleton] at hv'
            subst hv'
            exact ⟨hv, List.mem_cons_self _ _⟩⟩
      cases hf : fetch site base_url with
      | none => exact hstep
      | some page =>
        refine crawlStep_trans (b := ⟨base_url :: st.visited, st.fetchTrace ++ [base_url],
          st.pageTexts ++ [(base_url, page.text)]⟩) ?_ ?_
        · exact ⟨fun v hv' => List.mem_cons_of_mem _ hv', [base_url], rfl,
            List.nodup_singleton _, fun v hv' => by
              rw [List.mem_singleton] at hv'
              subst hv'
              exact ⟨hv, List.mem_cons_self _ _⟩⟩
        · exact foldl_crawlStep _ (fun u s => ih u s) _ _

/-- C1: a crawl started from a state whose fetch log is consistent with its
visited set fetches no URL twice — the final fetch log has no duplicate —
and no URL of the visited set is ever fetched again; the crawl terminates
for every finite site (the embedding is a total function).  This covers
src/scrape_site_script.py; the crawl of src/app/crawler.py visits only its
start URL (see the arity slip), so it satisfies the bound trivially. -/
theorem crawl_fetches_each_url_at_most_once (site : Site) (base_url domain : Str)
    (max_depth : Nat) (st : ScrapeState)
    (h1 : st.fetchTrace.Nodup) (h2 : ∀ v ∈ st.fetchTrace, v ∈ st.visited) :
    (scrape_site site base_url domain max_depth 0 st).fetchTrace.Nodup ∧
    ∀ v ∈ st.visited,
      v ∉ (scrape_site site base_url domain max_depth 0 st).fetchTrace.drop
        st.fetchTrace.length := by
  obtain ⟨-, ext, ht, hn, he⟩ :=
    scrapeAux_crawlStep site domain (max_depth + 1 - 0) base_url st
  constructor
  · rw [scrape_site, ht]
    refine List.Nodup.append h1 hn ?_
    intro v hv₁ hv₂
    exact (he v hv₂).1 (h2 v hv₁)
  · intro v hv
    rw [scrape_site, ht, List.drop_left]
    intro hvext
    exact (he v hvext).1 hv

/-- Witness for C1 on the 3-page cyclic site: the crawl terminates with a
duplicate-free fetch log. -/
theorem crawl_fetches_each_url_at_most_once_witness :
    (scrape_site siteABC (str "https://a.com/") (str "a.com") 3 0
        ⟨[], [], []⟩).fetchTrace.Nodup ∧
    ∀ v ∈ (⟨[], [], []⟩ : ScrapeState).visited,
      v ∉ (scrape_site siteABC (str "https://a.com/") (str "a.com") 3 0
          ⟨[], [], []⟩).fetchTrace.drop (⟨[], [], []⟩ : ScrapeState).fetchTrace.length :=
  crawl_fetches_each_url_at_most_once siteABC (str "https://a.com/") (str "a.com") 3
    ⟨[], [], []⟩ List.nodup_nil (by intro v hv; simp at hv)

/-- C6: a URL whose fetch fails is caught — the crawl call returns normally
— and that node contributes no page text and no traversal (only its
visited/fetch marks), while a frontier beginning with the failing URL
continues with the remaining URLs exactly as usual; the embedding being a
total function, the crawl as a whole never aborts. -/
theorem crawl_failure_contained (site : Site) (u : Str) (hfail : u ∈ site.failing) :
    (∀ domain max_depth current_depth st,
      scrape_site site u domain max_depth current_depth st =
        if u ∈ st.visited ∨ current_depth > max_depth then st
        else ⟨u :: st.visited, st.fetchTrace ++ [u], st.pageTexts⟩) ∧
    (∀ domain gas rest st,
      (u :: rest).foldl (fun s v => scrapeAux site domain gas v s) st =
        rest.foldl (fun s v => scrapeAux site domain gas v s)
          (scrapeAux site domain gas u st)) := by
  have hfetch : fetch site u = none := by unfold fetch; rw [if_pos hfail]
  constructor
  · intro domain max_depth current_depth st
    unfold scrape_site
    by_cases hd : current_depth > max_depth
    · have hg : max_depth + 1 - current_depth = 0 := by omega
      rw [hg, if_pos (Or.inr hd)]
      rfl
    · obtain ⟨g, hg⟩ : ∃ g, max_depth + 1 - current_depth = g + 1 :=
        ⟨max_depth - current_depth, by omega⟩
      rw [hg]
      by_cases hv : u ∈ st.visited
      · rw [if_pos (Or.inl hv)]
        simp only [scrapeAux]
        rw [if_pos hv]
      · rw [if_neg (by tauto)]
        simp only [scrapeAux]
        rw [if_neg hv, hfetch]
  · intro domain gas rest st
    rw [List.foldl_cons]

/-- The failure-containment scenario: the start page links first to a page
whose fetch fails, then to a healthy sibling. -/
def siteFail : Site :=
  ⟨[(str "https://a.com/",
      ⟨str "A", [], [str "https://a.com/bad", str "https://a.com/b"]⟩),
    (str "https://a.com/b", ⟨str "B", [], []⟩)],
   [str "https://a.com/bad"]⟩

/-- Witness for C6: on `siteFail` the failing page's crawl only marks it
visited and fetched, and the full crawl from the start page still reaches
the sibling after the failure, saving exactly the two healthy pages. -/
theorem crawl_failure_contained_witness :
    (∀ domain max_depth current_depth st,
      scrape_site siteFail (str "https://a.com/bad") domain max_depth current_depth st =
        if str "https://a.com/bad" ∈ st.visited ∨ current_depth > max_depth then st
        else ⟨str "https://a.com/bad" :: st.visited,
          st.fetchTrace ++ [str "https://a.com/bad"], st.pageTexts⟩) ∧
    (scrape_site siteFail (str "https://a.com/") (str "a.com") 3 0 ⟨[], [], []⟩).pageTexts
      = [(str "https://a.com/", str "A"), (str "https://a.com/b", str "B")] := by
  refine ⟨(crawl_failure_contained siteFail (str "https://a.com/bad") (by decide)).1, ?_⟩
  rfl
